import Mathlib

/-!
Shallow embedding of the `binary-search` Rust crate and verification of its
specification claims.

Modelling conventions:
* Rust `usize` values become `Nat`; the places where the source can underflow
  (`x - 1` at `x = 0`), index out of bounds, or divide by zero are modelled
  explicitly as `Except` errors (`RustPanic`), matching the panics Rust raises.
* The generic element type `T : Ord` is instantiated at `Int`.
* Loops are translated as fuel-indexed structural recursions; each entry point
  passes a fuel that is provably never exhausted (`RustPanic.fuelOut` marks
  exhaustion and doubles as a nontermination marker for the generic
  interpolation loop, which genuinely can diverge for adversarial estimators).
-/

/-- The panics the crate can raise: the explicit unsorted-input panic, usize
subtraction underflow, slice index out of bounds, division by zero, and the
embedding-only fuel-exhaustion marker. -/
inductive RustPanic where
  | unsorted
  | underflow
  | outOfBounds
  | divByZero
  | fuelOut
deriving DecidableEq, Repr

/-- `utils::is_sorted`: every adjacent pair satisfies `pair[0] <= pair[1]`
(the source phrases this with `windows(2).all`). -/
def is_sorted : List Int → Bool
  | [] => true
  | [_] => true
  | a :: b :: rest => a ≤ b && is_sorted (b :: rest)

/-- The loop of `core::binary_search`: inclusive range `[left, right]`,
probe the floor midpoint, narrow by the three-way comparison.  The source
computes `right = middle - 1` on `usize`, which underflows when `middle = 0`. -/
def core_loop (target : Int) (arr : List Int) (left right fuel : Nat) :
    Except RustPanic (Option Nat) :=
  match fuel with
  | 0 => .error .fuelOut
  | fuel + 1 =>
    if left ≤ right then
      let middle := (left + right) / 2
      match arr.get? middle with
      | none => .error .outOfBounds
      | some v =>
        if v = target then .ok (some middle)
        else if target < v then
          if middle = 0 then .error .underflow
          else core_loop target arr left (middle - 1) fuel
        else core_loop target arr (middle + 1) right fuel
    else .ok none

/-- `core::binary_search`.  The source initialises `right = arr.len() - 1`,
which underflows on an empty slice (its callers guard against that). -/
def core_binary_search (target : Int) (arr : List Int) : Except RustPanic (Option Nat) :=
  if arr.length = 0 then .error .underflow
  else core_loop target arr 0 (arr.length - 1) (arr.length + 1)

/-- The public `binary_search`: panics on unsorted input, returns `None` on an
empty slice, otherwise delegates to the core implementation. -/
def binary_search (target : Int) (arr : List Int) : Except RustPanic (Option Nat) :=
  if is_sorted arr = false then .error .unsorted
  else if arr.isEmpty then .ok none
  else core_binary_search target arr

/-! ### Basic list and sortedness lemmas -/

theorem get?_eq_some_getD (l : List Int) (j : Nat) (h : j < l.length) :
    l.get? j = some (l.getD j 0) := by
  rw [List.get?_eq_get h]
  simp [List.getD_eq_getElem, h, List.get_eq_getElem]

theorem getD_cons_succ' (a : Int) (l : List Int) (j : Nat) :
    (a :: l).getD (j + 1) 0 = l.getD j 0 := rfl

theorem not_isEmpty_of_pos (l : List Int) (h : 0 < l.length) : ¬ l.isEmpty = true := by
  cases l with
  | nil => simp at h
  | cons a t => simp

theorem is_sorted_cons (a b : Int) (l : List Int) :
    is_sorted (a :: b :: l) = true ↔ a ≤ b ∧ is_sorted (b :: l) = true := by
  simp [is_sorted]

/-- Sortedness gives monotonicity of indexed access. -/
theorem sorted_getD_mono (l : List Int) (hs : is_sorted l = true) :
    ∀ i j : Nat, i ≤ j → j < l.length → l.getD i 0 ≤ l.getD j 0 := by
  induction l with
  | nil => intro i j _ hj; simp at hj
  | cons a t ih =>
    intro i j hij hj
    cases t with
    | nil =>
      have hj0 : j = 0 := by simpa using hj
      have hi0 : i = 0 := by omega
      subst hj0; subst hi0
      exact le_refl _
    | cons b t2 =>
      rcases is_sorted_cons a b t2 |>.mp hs with ⟨hab, hs2⟩
      match i, j with
      | 0, 0 => exact le_refl _
      | 0, j + 1 =>
        have hb : (a :: b :: t2).getD 0 0 ≤ (b :: t2).getD 0 0 := hab
        have := ih hs2 0 j (Nat.zero_le _) (by simpa using hj)
        calc (a :: b :: t2).getD 0 0 ≤ (b :: t2).getD 0 0 := hb
          _ ≤ (b :: t2).getD j 0 := this
          _ = (a :: b :: t2).getD (j + 1) 0 := rfl
      | i + 1, j + 1 =>
        have := ih hs2 i j (by omega) (by simpa using hj)
        simpa [getD_cons_succ'] using this

/-- An adjacent descending pair refutes `is_sorted`. -/
theorem is_sorted_eq_false_of_descent (l : List Int) (i : Nat)
    (hi : i + 1 < l.length) (hd : l.getD (i + 1) 0 < l.getD i 0) :
    is_sorted l = false := by
  by_contra h
  have hs : is_sorted l = true := by
    cases hh : is_sorted l
    · exact absurd hh h
    · rfl
  have := sorted_getD_mono l hs i (i + 1) (by omega) hi
  omega

/-! ### Correctness of the core binary-search loop -/

/-- Main invariant lemma for `core_loop`.  Provided the list is sorted
(as monotone access), the window is inside the list, every occurrence of
the target lies in the window, and the head of the list is at most the
target (which rules out the `middle - 1` underflow at `middle = 0`),
the loop either returns an index holding the target or correctly reports
absence. -/
theorem core_loop_spec (target : Int) (arr : List Int)
    (hmono : ∀ i j : Nat, i ≤ j → j < arr.length → arr.getD i 0 ≤ arr.getD j 0)
    (hge : arr.getD 0 0 ≤ target) :
    ∀ fuel left right, right < arr.length → right + 1 - left < fuel →
    (∀ j, j < arr.length → arr.getD j 0 = target → left ≤ j ∧ j ≤ right) →
    (∃ j, j < arr.length ∧
        core_loop target arr left right fuel = .ok (some j) ∧ arr.getD j 0 = target) ∨
    (core_loop target arr left right fuel = .ok none ∧
        ∀ j, j < arr.length → arr.getD j 0 ≠ target) := by
  intro fuel
  induction fuel with
  | zero => intro left right _ hf _; omega
  | succ fuel ih =>
    intro left right hr hf hocc
    by_cases hlr : left ≤ right
    · have hmid : (left + right) / 2 < arr.length := by omega
      have hget : arr.get? ((left + right) / 2) = some (arr.getD ((left + right) / 2) 0) :=
        get?_eq_some_getD arr _ hmid
      set middle := (left + right) / 2 with hmiddef
      set v := arr.getD middle 0 with hvdef
      by_cases hveq : v = target
      · left
        refine ⟨middle, hmid, ?_, hveq⟩
        simp only [core_loop, if_pos hlr, hget]
        simp [hveq]
      · by_cases hvgt : target < v
        · -- Greater branch: all occurrences are strictly below `middle`
          have hmne : middle ≠ 0 := by
            intro h0
            rw [h0] at hvdef
            omega
          have hstep : core_loop target arr left right (fuel + 1)
              = core_loop target arr left (middle - 1) fuel := by
            simp only [core_loop, if_pos hlr, hget]
            rw [if_neg hveq, if_pos hvgt, if_neg hmne]
          have hocc2 : ∀ j, j < arr.length → arr.getD j 0 = target →
              left ≤ j ∧ j ≤ middle - 1 := by
            intro j hj hjt
            have h1 := hocc j hj hjt
            have hjm : j < middle := by
              by_contra hge2
              have := hmono middle j (by omega) hj
              omega
            omega
          have := ih left (middle - 1) (by omega) (by omega) hocc2
          rw [hstep]
          exact this
        · -- Less branch: all occurrences are strictly above `middle`
          have hvlt : v < target := by
            rcases lt_trichotomy v target with h | h | h
            · exact h
            · exact absurd h hveq
            · exact absurd h hvgt
          have hstep : core_loop target arr left right (fuel + 1)
              = core_loop target arr (middle + 1) right fuel := by
            simp only [core_loop, if_pos hlr, hget]
            rw [if_neg hveq, if_neg hvgt]
          have hocc2 : ∀ j, j < arr.length → arr.getD j 0 = target →
              middle + 1 ≤ j ∧ j ≤ right := by
            intro j hj hjt
            have h1 := hocc j hj hjt
            have hjm : middle < j := by
              by_contra hle2
              have := hmono j middle (by omega) hmid
              omega
            omega
          have := ih (middle + 1) right hr (by omega) hocc2
          rw [hstep]
          exact this
    · right
      constructor
      · simp only [core_loop, if_neg hlr]
      · intro j hj hjt
        have := hocc j hj hjt
        omega

/-- Correctness of `core_binary_search` on a sorted non-empty list whose head
is at most the target. -/
theorem core_binary_search_spec (target : Int) (arr : List Int)
    (hs : is_sorted arr = true) (hne : 0 < arr.length)
    (hge : arr.getD 0 0 ≤ target) :
    (∃ j, j < arr.length ∧
        core_binary_search target arr = .ok (some j) ∧ arr.getD j 0 = target) ∨
    (core_binary_search target arr = .ok none ∧
        ∀ j, j < arr.length → arr.getD j 0 ≠ target) := by
  have hmono := sorted_getD_mono arr hs
  have h := core_loop_spec target arr hmono hge (arr.length + 1) 0 (arr.length - 1)
    (by omega) (by omega) (by intro j hj _; omega)
  have hrw : core_binary_search target arr
      = core_loop target arr 0 (arr.length - 1) (arr.length + 1) := by
    simp only [core_binary_search, if_neg (by omega : ¬ arr.length = 0)]
  rw [hrw]
  exact h

/-- C10 (confirmed).  For a sorted non-empty list whose first element is at
most the target, `core::binary_search` never underflows: it terminates
normally, returning an index holding the target when it occurs and `None`
otherwise. -/
theorem c10_core_no_underflow (target : Int) (arr : List Int)
    (hs : is_sorted arr = true) (hne : 0 < arr.length)
    (hge : arr.getD 0 0 ≤ target) :
    ((∃ j, j < arr.length ∧ arr.getD j 0 = target) →
      ∃ j, j < arr.length ∧
        core_binary_search target arr = .ok (some j) ∧ arr.getD j 0 = target) ∧
    ((∀ j, j < arr.length → arr.getD j 0 ≠ target) →
      core_binary_search target arr = .ok none) := by
  rcases core_binary_search_spec target arr hs hne hge with h | h
  · constructor
    · intro _; exact h
    · intro habs
      rcases h with ⟨j, hj, _, hjt⟩
      exact absurd hjt (habs j hj)
  · constructor
    · intro ⟨j, hj, hjt⟩
      exact absurd hjt (h.2 j hj)
    · intro _; exact h.1

theorem c10_core_no_underflow_witness :
    is_sorted [1, 2, 3] = true ∧ (0 : Nat) < 3 ∧ ([1, 2, 3] : List Int).getD 0 0 ≤ 2 ∧
    (((∃ j, j < ([1, 2, 3] : List Int).length ∧ ([1, 2, 3] : List Int).getD j 0 = 2) →
      ∃ j, j < ([1, 2, 3] : List Int).length ∧
        core_binary_search 2 [1, 2, 3] = .ok (some j) ∧
        ([1, 2, 3] : List Int).getD j 0 = 2) ∧
    ((∀ j, j < ([1, 2, 3] : List Int).length → ([1, 2, 3] : List Int).getD j 0 ≠ 2) →
      core_binary_search 2 [1, 2, 3] = .ok none)) :=
  ⟨by decide, by decide, by decide,
    c10_core_no_underflow 2 [1, 2, 3] (by decide) (by decide) (by decide)⟩


/-! ### Rank queries (`ranks.rs`) -/

/-- Loop of `leftmost_rank`: half-open `[left, right)`, advance `left` past
midpoints whose element is `< target`, otherwise retract `right` to the
midpoint. -/
def leftmost_rank_loop (target : Int) (arr : List Int) (left right fuel : Nat) :
    Except RustPanic Nat :=
  match fuel with
  | 0 => .error .fuelOut
  | fuel + 1 =>
    if left < right then
      let middle := (left + right) / 2
      match arr.get? middle with
      | none => .error .outOfBounds
      | some v =>
        if v < target then leftmost_rank_loop target arr (middle + 1) right fuel
        else leftmost_rank_loop target arr left middle fuel
    else .ok left

/-- `ranks::leftmost_rank`. -/
def leftmost_rank (target : Int) (arr : List Int) : Except RustPanic Nat :=
  if is_sorted arr = false then .error .unsorted
  else if arr.isEmpty then .ok 0
  else leftmost_rank_loop target arr 0 arr.length (arr.length + 1)

/-- Loop of `rightmost_rank`: half-open `[left, right)`, retract `right` to
midpoints whose element is `> target`, otherwise advance `left` past them.
Returns the final `right` (the caller subtracts one). -/
def rightmost_rank_loop (target : Int) (arr : List Int) (left right fuel : Nat) :
    Except RustPanic Nat :=
  match fuel with
  | 0 => .error .fuelOut
  | fuel + 1 =>
    if left < right then
      let middle := (left + right) / 2
      match arr.get? middle with
      | none => .error .outOfBounds
      | some v =>
        if target < v then rightmost_rank_loop target arr left middle fuel
        else rightmost_rank_loop target arr (middle + 1) right fuel
    else .ok right

/-- `ranks::rightmost_rank`.  The source returns `right - 1` on `usize`,
which underflows when `right = 0` (target below every element). -/
def rightmost_rank (target : Int) (arr : List Int) : Except RustPanic Nat :=
  if is_sorted arr = false then .error .unsorted
  else if arr.isEmpty then .ok 0
  else
    match rightmost_rank_loop target arr 0 arr.length (arr.length + 1) with
    | .error p => .error p
    | .ok r => if r = 0 then .error .underflow else .ok (r - 1)

/-- If a Boolean predicate on the elements holds exactly at the first `k`
positions, then `countP` counts `k`. -/
theorem countP_eq_of_prefix (p : Int → Bool) (l : List Int) :
    ∀ k : Nat, k ≤ l.length →
    (∀ j, j < l.length → (p (l.getD j 0) = true ↔ j < k)) → l.countP p = k := by
  induction l with
  | nil => intro k hk _; simp at hk; simp [hk]
  | cons a t ih =>
    intro k hk h
    match k with
    | 0 =>
      have ha : p a = false := by
        have := h 0 (by simp)
        simp at this
        cases hpa : p a
        · rfl
        · exact absurd hpa (by simpa using this)
      have ht : t.countP p = 0 := by
        refine ih 0 (by omega) ?_
        intro j hj
        have := h (j + 1) (by simpa using Nat.succ_lt_succ hj)
        simpa [getD_cons_succ'] using this
      simp [List.countP_cons, ha, ht]
    | k + 1 =>
      have ha : p a = true := by
        have := h 0 (by simp)
        simpa using this.mpr (by omega)
      have ht : t.countP p = k := by
        refine ih k (by simpa using hk) ?_
        intro j hj
        have := h (j + 1) (by simpa using Nat.succ_lt_succ hj)
        rw [getD_cons_succ'] at this
        constructor
        · intro hp; have := this.mp hp; omega
        · intro hjk; exact this.mpr (by omega)
      simp [List.countP_cons, ha, ht]

/-- Invariant lemma for the `leftmost_rank` loop: it converges to the boundary
between elements `< target` and elements `≥ target`. -/
theorem leftmost_rank_loop_spec (target : Int) (arr : List Int)
    (hmono : ∀ i j : Nat, i ≤ j → j < arr.length → arr.getD i 0 ≤ arr.getD j 0) :
    ∀ fuel left right, right ≤ arr.length → left ≤ right → right - left < fuel →
    (∀ j, j < arr.length → j < left → arr.getD j 0 < target) →
    (∀ j, j < arr.length → right ≤ j → ¬ arr.getD j 0 < target) →
    ∃ res, leftmost_rank_loop target arr left right fuel = .ok res ∧
      left ≤ res ∧ res ≤ right ∧
      (∀ j, j < arr.length → (arr.getD j 0 < target ↔ j < res)) := by
  intro fuel
  induction fuel with
  | zero => intro left right _ _ hf _ _; omega
  | succ fuel ih =>
    intro left right hrn hlr hf hlow hhigh
    by_cases hlt : left < right
    · have hmid : (left + right) / 2 < arr.length := by omega
      have hget := get?_eq_some_getD arr ((left + right) / 2) hmid
      set middle := (left + right) / 2 with hmdef
      have hm1 : left ≤ middle := by omega
      have hm2 : middle < right := by omega
      by_cases hv : arr.getD middle 0 < target
      · have hstep : leftmost_rank_loop target arr left right (fuel + 1)
            = leftmost_rank_loop target arr (middle + 1) right fuel := by
          simp only [leftmost_rank_loop, if_pos hlt, hget]
          rw [if_pos hv]
        have hlow2 : ∀ j, j < arr.length → j < middle + 1 → arr.getD j 0 < target := by
          intro j hj hjm
          calc arr.getD j 0 ≤ arr.getD middle 0 := hmono j middle (by omega) hmid
            _ < target := hv
        rcases ih (middle + 1) right hrn (by omega) (by omega) hlow2 hhigh with
          ⟨res, heq, h1, h2, h3⟩
        exact ⟨res, by rw [hstep]; exact heq, by omega, h2, h3⟩
      · have hstep : leftmost_rank_loop target arr left right (fuel + 1)
            = leftmost_rank_loop target arr left middle fuel := by
          simp only [leftmost_rank_loop, if_pos hlt, hget]
          rw [if_neg hv]
        have hhigh2 : ∀ j, j < arr.length → middle ≤ j → ¬ arr.getD j 0 < target := by
          intro j hj hjm hcon
          have := hmono middle j hjm hj
          omega
        rcases ih left middle (by omega) (by omega) (by omega) hlow hhigh2 with
          ⟨res, heq, h1, h2, h3⟩
        exact ⟨res, by rw [hstep]; exact heq, h1, by omega, h3⟩
    · refine ⟨left, ?_, le_refl _, by omega, ?_⟩
      · simp only [leftmost_rank_loop, if_neg hlt]
      · intro j hj
        constructor
        · intro hv
          by_contra hge
          exact hhigh j hj (by omega) hv
        · intro hjl
          exact hlow j hj hjl

/-- C9 (confirmed).  On any sorted list (including the empty one)
`leftmost_rank` returns the number of elements strictly below the target. -/
theorem c9_leftmost_rank_counts (target : Int) (arr : List Int)
    (hs : is_sorted arr = true) :
    leftmost_rank target arr = .ok (arr.countP (fun x => decide (x < target))) := by
  match harr : arr with
  | [] => rfl
  | a :: t =>
    have hmono := sorted_getD_mono (a :: t) hs
    rcases leftmost_rank_loop_spec target (a :: t) hmono ((a :: t).length + 1) 0
        (a :: t).length (le_refl _) (by omega) (by omega)
        (by intro j _ h; omega) (by intro j hj hge; omega) with
      ⟨res, heq, _, hresn, hchar⟩
    have hcount : (a :: t).countP (fun x => decide (x < target)) = res := by
      refine countP_eq_of_prefix _ _ res hresn ?_
      intro j hj
      rw [decide_eq_true_iff]
      exact hchar j hj
    have hform : leftmost_rank target (a :: t)
        = leftmost_rank_loop target (a :: t) 0 (a :: t).length ((a :: t).length + 1) := by
      simp only [leftmost_rank, hs]
      rfl
    rw [hform, heq, hcount]

theorem c9_leftmost_rank_counts_witness :
    is_sorted [1, 2, 4, 4, 4, 5, 6, 7] = true ∧
    leftmost_rank 4 [1, 2, 4, 4, 4, 5, 6, 7]
      = .ok (([1, 2, 4, 4, 4, 5, 6, 7] : List Int).countP (fun x => decide (x < 4))) :=
  ⟨by decide, c9_leftmost_rank_counts 4 [1, 2, 4, 4, 4, 5, 6, 7] (by decide)⟩

/-- Invariant lemma for the `rightmost_rank` loop: it converges to the boundary
between elements `≤ target` and elements `> target`. -/
theorem rightmost_rank_loop_spec (target : Int) (arr : List Int)
    (hmono : ∀ i j : Nat, i ≤ j → j < arr.length → arr.getD i 0 ≤ arr.getD j 0) :
    ∀ fuel left right, right ≤ arr.length → left ≤ right → right - left < fuel →
    (∀ j, j < arr.length → j < left → arr.getD j 0 ≤ target) →
    (∀ j, j < arr.length → right ≤ j → target < arr.getD j 0) →
    ∃ res, rightmost_rank_loop target arr left right fuel = .ok res ∧
      left ≤ res ∧ res ≤ right ∧
      (∀ j, j < arr.length → (arr.getD j 0 ≤ target ↔ j < res)) := by
  intro fuel
  induction fuel with
  | zero => intro left right _ _ hf _ _; omega
  | succ fuel ih =>
    intro left right hrn hlr hf hlow hhigh
    by_cases hlt : left < right
    · have hmid : (left + right) / 2 < arr.length := by omega
      have hget := get?_eq_some_getD arr ((left + right) / 2) hmid
      set middle := (left + right) / 2 with hmdef
      have hm1 : left ≤ middle := by omega
      have hm2 : middle < right := by omega
      by_cases hv : target < arr.getD middle 0
      · have hstep : rightmost_rank_loop target arr left right (fuel + 1)
            = rightmost_rank_loop target arr left middle fuel := by
          simp only [rightmost_rank_loop, if_pos hlt, hget]
          rw [if_pos hv]
        have hhigh2 : ∀ j, j < arr.length → middle ≤ j → target < arr.getD j 0 := by
          intro j hj hjm
          calc target < arr.getD middle 0 := hv
            _ ≤ arr.getD j 0 := hmono middle j hjm hj
        rcases ih left middle (by omega) (by omega) (by omega) hlow hhigh2 with
          ⟨res, heq, h1, h2, h3⟩
        exact ⟨res, by rw [hstep]; exact heq, h1, by omega, h3⟩
      · have hstep : rightmost_rank_loop target arr left right (fuel + 1)
            = rightmost_rank_loop target arr (middle + 1) right fuel := by
          simp only [rightmost_rank_loop, if_pos hlt, hget]
          rw [if_neg hv]
        have hlow2 : ∀ j, j < arr.length → j < middle + 1 → arr.getD j 0 ≤ target := by
          intro j hj hjm
          have := hmono j middle (by omega) hmid
          omega
        rcases ih (middle + 1) right hrn (by omega) (by omega) hlow2 hhigh with
          ⟨res, heq, h1, h2, h3⟩
        exact ⟨res, by rw [hstep]; exact heq, by omega, h2, h3⟩
    · refine ⟨right, ?_, by omega, le_refl _, ?_⟩
      · simp only [rightmost_rank_loop, if_neg hlt]
      · intro j hj
        constructor
        · intro hv
          by_contra hge
          have := hhigh j hj (by omega)
          omega
        · intro hjl
          exact hlow j hj (by omega)

/-- C4 (amended; confirmed for the amended statement).  On a sorted non-empty
list whose first element is at most the target, `rightmost_rank` returns the
count of elements `≤ target`, minus one.  (For targets below every element the
source subtracts one from zero on `usize` and panics; see the counterexample.) -/
theorem c4_rightmost_rank_counts (target : Int) (arr : List Int)
    (hs : is_sorted arr = true) (hne : 0 < arr.length)
    (hge : arr.getD 0 0 ≤ target) :
    rightmost_rank target arr
      = .ok (arr.countP (fun x => decide (x ≤ target)) - 1) := by
  have hmono := sorted_getD_mono arr hs
  rcases rightmost_rank_loop_spec target arr hmono (arr.length + 1) 0 arr.length
      (le_refl _) (by omega) (by omega)
      (by intro j _ h; omega) (by intro j hj hge2; omega) with
    ⟨res, heq, _, hresn, hchar⟩
  have hcount : arr.countP (fun x => decide (x ≤ target)) = res := by
    refine countP_eq_of_prefix _ _ res hresn ?_
    intro j hj
    rw [decide_eq_true_iff]
    exact hchar j hj
  have hres0 : res ≠ 0 := by
    intro h0
    have := (hchar 0 hne).mp hge
    omega
  have hnot : ¬ arr.isEmpty = true := by
    cases arr
    · simp at hne
    · simp
  simp only [rightmost_rank, hs]
  rw [if_neg (by simp), if_neg hnot, heq]
  show (if res = 0 then Except.error RustPanic.underflow else Except.ok (res - 1))
      = Except.ok (arr.countP (fun x => decide (x ≤ target)) - 1)
  rw [if_neg hres0, hcount]

theorem c4_rightmost_rank_counts_witness :
    is_sorted [1, 2, 4, 4, 4, 5, 6, 7] = true ∧ (0 : Nat) < 8 ∧
    ([1, 2, 4, 4, 4, 5, 6, 7] : List Int).getD 0 0 ≤ 4 ∧
    rightmost_rank 4 [1, 2, 4, 4, 4, 5, 6, 7]
      = .ok (([1, 2, 4, 4, 4, 5, 6, 7] : List Int).countP (fun x => decide (x ≤ 4)) - 1) :=
  ⟨by decide, by decide, by decide,
    c4_rightmost_rank_counts 4 [1, 2, 4, 4, 4, 5, 6, 7] (by decide) (by decide) (by decide)⟩

/-- C4 counterexample: for a target smaller than every element the claim says
`rightmost_rank` returns a value normally, but the code underflows `right - 1`
on `usize` and panics. -/
theorem c4_rightmost_rank_underflow : rightmost_rank 0 [1] = .error .underflow := rfl

/-! ### Exponential search (`variations/exponential_search.rs`) -/

/-- Bound-doubling loop of `exponential_search`: double `bound` while it is
inside the array and the element there is still below the target.  The fuel
passed by the entry point is never exhausted because the bound doubles from 1
(see `exp_bound_loop_spec`). -/
def exp_bound_loop (target : Int) (arr : List Int) (bound fuel : Nat) : Nat :=
  match fuel with
  | 0 => bound
  | fuel + 1 =>
    if bound < arr.length ∧ arr.getD bound 0 < target then
      exp_bound_loop target arr (bound * 2) fuel
    else bound

/-- `variations::exponential_search`: find the doubling bound, then delegate
`core::binary_search` to the slice `[bound/2, min(bound+1, len))` and translate
the relative index back. -/
def exponential_search (target : Int) (arr : List Int) : Except RustPanic (Option Nat) :=
  if is_sorted arr = false then .error .unsorted
  else if arr.isEmpty then .ok none
  else
    let bound := exp_bound_loop target arr 1 (arr.length + 1)
    let left_bound := bound / 2
    let right_bound := min (bound + 1) arr.length
    if left_bound ≤ right_bound ∧ right_bound ≤ arr.length then
      match core_binary_search target
          ((arr.drop left_bound).take (right_bound - left_bound)) with
      | .error p => .error p
      | .ok none => .ok none
      | .ok (some slice_index) => .ok (some (slice_index + left_bound))
    else .error .outOfBounds

/-- The bound loop exits with the loop guard false; the final bound either is
the starting one or is an even number whose half satisfied the guard. -/
theorem exp_bound_loop_spec (target : Int) (arr : List Int) :
    ∀ fuel bound, 1 ≤ bound → arr.length ≤ 2 ^ fuel * bound →
    bound ≤ exp_bound_loop target arr bound fuel ∧
    ¬ (exp_bound_loop target arr bound fuel < arr.length ∧
        arr.getD (exp_bound_loop target arr bound fuel) 0 < target) ∧
    (exp_bound_loop target arr bound fuel = bound ∨
      ((exp_bound_loop target arr bound fuel) / 2 < arr.length ∧
        arr.getD ((exp_bound_loop target arr bound fuel) / 2) 0 < target ∧
        bound ≤ (exp_bound_loop target arr bound fuel) / 2 ∧
        (exp_bound_loop target arr bound fuel) % 2 = 0)) := by
  intro fuel
  induction fuel with
  | zero =>
    intro bound hb hlen
    have h0 : (2 : Nat) ^ 0 * bound = bound := by ring
    rw [h0] at hlen
    refine ⟨le_refl _, ?_, Or.inl rfl⟩
    simp only [exp_bound_loop]
    intro ⟨h1, _⟩
    omega
  | succ fuel ih =>
    intro bound hb hlen
    by_cases hguard : bound < arr.length ∧ arr.getD bound 0 < target
    · have hstep : exp_bound_loop target arr bound (fuel + 1)
          = exp_bound_loop target arr (bound * 2) fuel := by
        simp only [exp_bound_loop, if_pos hguard]
      have hlen2 : arr.length ≤ 2 ^ fuel * (bound * 2) := by
        have : 2 ^ (fuel + 1) * bound = 2 ^ fuel * (bound * 2) := by ring
        omega
      rcases ih (bound * 2) (by omega) hlen2 with ⟨h1, h2, h3⟩
      rw [hstep]
      refine ⟨by omega, h2, ?_⟩
      rcases h3 with h3 | h3
      · right
        rw [h3]
        have hhalf : bound * 2 / 2 = bound := by omega
        rw [hhalf]
        exact ⟨hguard.1, hguard.2, le_refl _, by omega⟩
      · right
        exact ⟨h3.1, h3.2.1, by omega, h3.2.2.2⟩
    · have hstep : exp_bound_loop target arr bound (fuel + 1) = bound := by
        simp only [exp_bound_loop, if_neg hguard]
      rw [hstep]
      exact ⟨le_refl _, hguard, Or.inl rfl⟩

/-- Access into the modelled slice `arr[a .. a + n)`. -/
theorem slice_getD (arr : List Int) (a n j : Nat) (hj : j < n)
    (hlen : a + n ≤ arr.length) :
    ((arr.drop a).take n).getD j 0 = arr.getD (a + j) 0 := by
  have h1 : ((arr.drop a).take n).get? j = (arr.drop a).get? j := List.get?_take hj
  have h2 : (arr.drop a).get? j = arr.get? (a + j) := List.get?_drop arr a j
  have hlt : a + j < arr.length := by omega
  have hlt2 : j < ((arr.drop a).take n).length := by
    rw [List.length_take, List.length_drop]
    omega
  have := get?_eq_some_getD arr (a + j) hlt
  have h4 := get?_eq_some_getD ((arr.drop a).take n) j hlt2
  rw [h4, h2, this] at h1
  exact Option.some.inj h1

/-- A variant of `core_binary_search_spec` that takes monotonicity directly
(used on slices, whose sortedness is inherited from the full list). -/
theorem core_binary_search_spec_mono (target : Int) (arr : List Int)
    (hmono : ∀ i j : Nat, i ≤ j → j < arr.length → arr.getD i 0 ≤ arr.getD j 0)
    (hne : 0 < arr.length) (hge : arr.getD 0 0 ≤ target) :
    (∃ j, j < arr.length ∧
        core_binary_search target arr = .ok (some j) ∧ arr.getD j 0 = target) ∨
    (core_binary_search target arr = .ok none ∧
        ∀ j, j < arr.length → arr.getD j 0 ≠ target) := by
  have h := core_loop_spec target arr hmono hge (arr.length + 1) 0 (arr.length - 1)
    (by omega) (by omega) (by intro j hj _; omega)
  have hrw : core_binary_search target arr
      = core_loop target arr 0 (arr.length - 1) (arr.length + 1) := by
    simp only [core_binary_search, if_neg (by omega : ¬ arr.length = 0)]
  rw [hrw]
  exact h

/-- Found-correctness of `exponential_search` on sorted input. -/
theorem exponential_search_finds (target : Int) (arr : List Int)
    (hs : is_sorted arr = true)
    (hocc : ∃ i, i < arr.length ∧ arr.getD i 0 = target) :
    ∃ j, j < arr.length ∧
      exponential_search target arr = .ok (some j) ∧ arr.getD j 0 = target := by
  rcases hocc with ⟨i, hi, hit⟩
  have hmono := sorted_getD_mono arr hs
  have hlen1 : 1 ≤ arr.length := by omega
  have hfuel : arr.length ≤ 2 ^ (arr.length + 1) * 1 := by
    have := Nat.lt_two_pow arr.length
    have h2 : (2 : Nat) ^ arr.length ≤ 2 ^ (arr.length + 1) := by
      apply Nat.pow_le_pow_right <;> omega
    omega
  rcases exp_bound_loop_spec target arr (arr.length + 1) 1 (le_refl _) hfuel with
    ⟨hble, hpost, hpre⟩
  set b := exp_bound_loop target arr 1 (arr.length + 1) with hbdef
  set lb := b / 2 with hlbdef
  set rb := min (b + 1) arr.length with hrbdef
  -- the slice start is inside the array and below the target
  have hlb_lt : lb < arr.length := by
    rcases hpre with h | h
    · rw [h] at hlbdef; omega
    · omega
  have hlb_le_t : arr.getD lb 0 ≤ target := by
    rcases hpre with h | h
    · have : lb = 0 := by rw [h] at hlbdef; omega
      rw [this]
      calc arr.getD 0 0 ≤ arr.getD i 0 := hmono 0 i (by omega) hi
        _ = target := hit
    · exact le_of_lt h.2.1
  -- some occurrence lies inside the slice
  have hocc_slice : ∃ o, lb ≤ o ∧ o < rb ∧ arr.getD o 0 = target := by
    have hi_ge : ∀ o, o < arr.length → arr.getD o 0 = target → lb ≤ o → o < rb →
        ∃ o2, lb ≤ o2 ∧ o2 < rb ∧ arr.getD o2 0 = target := by
      intro o h1 h2 h3 h4; exact ⟨o, h3, h4, h2⟩
    have hige : lb ≤ i := by
      rcases hpre with h | h
      · rw [h] at hlbdef; omega
      · by_contra hcon
        have := hmono i lb (by omega) hlb_lt
        omega
    by_cases hblen : b < arr.length
    · have hbge : ¬ arr.getD b 0 < target := by
        intro hcon; exact hpost ⟨hblen, hcon⟩
      by_cases hbeq : arr.getD b 0 = target
      · exact ⟨b, by omega, by omega, hbeq⟩
      · have hbgt : target < arr.getD b 0 := by
          rcases lt_trichotomy (arr.getD b 0) target with h | h | h
          · exact absurd h hbge
          · exact absurd h hbeq
          · exact h
        have hib : i < b := by
          by_contra hcon
          have := hmono b i (by omega) hi
          omega
        exact ⟨i, hige, by omega, hit⟩
    · exact ⟨i, hige, by omega, hit⟩
  -- slice facts
  have hlb_le_rb : lb ≤ rb := by omega
  have hrb_le : rb ≤ arr.length := by omega
  set slice := (arr.drop lb).take (rb - lb) with hslicedef
  have hslen : slice.length = rb - lb := by
    rw [hslicedef, List.length_take, List.length_drop]
    omega
  have hsget : ∀ j, j < rb - lb → slice.getD j 0 = arr.getD (lb + j) 0 := by
    intro j hj
    exact slice_getD arr lb (rb - lb) j hj (by omega)
  have hsmono : ∀ p q : Nat, p ≤ q → q < slice.length → slice.getD p 0 ≤ slice.getD q 0 := by
    intro p q hpq hq
    rw [hslen] at hq
    rw [hsget p (by omega), hsget q hq]
    exact hmono (lb + p) (lb + q) (by omega) (by omega)
  rcases hocc_slice with ⟨o, ho1, ho2, ho3⟩
  have hsne : 0 < slice.length := by omega
  have hsge : slice.getD 0 0 ≤ target := by
    rw [hsget 0 (by omega)]
    simpa using hlb_le_t
  rcases core_binary_search_spec_mono target slice hsmono hsne hsge with h | h
  · rcases h with ⟨sj, hsj, heq, hsjt⟩
    refine ⟨sj + lb, ?_, ?_, ?_⟩
    · rw [hslen] at hsj; omega
    · simp only [exponential_search, hs]
      rw [if_neg (by simp)]
      rw [if_neg (not_isEmpty_of_pos arr (by omega))]
      show (if lb ≤ rb ∧ rb ≤ arr.length then
          match core_binary_search target slice with
          | .error p => .error p
          | .ok none => .ok none
          | .ok (some slice_index) => .ok (some (slice_index + lb))
        else .error .outOfBounds) = Except.ok (some (sj + lb))
      rw [if_pos ⟨hlb_le_rb, hrb_le⟩, heq]
    · rw [hslen] at hsj
      rw [hsget sj hsj] at hsjt
      rw [Nat.add_comm sj lb]
      exact hsjt
  · exfalso
    rcases h with ⟨_, habs⟩
    have ho : o - lb < slice.length := by omega
    apply habs (o - lb) ho
    rw [hslen] at ho
    rw [hsget (o - lb) ho]
    have : lb + (o - lb) = o := by omega
    rw [this]
    exact ho3

/-! ### Uniform binary search (`variations/uniform.rs`) -/

/-- `MAX_LOOKUP_TABLE_SIZE` is 64; the table is a fixed `[usize; 64]`,
modelled as a length-64 list. -/
structure UniformBinarySearch where
  last_arr_size : Option Nat
  lookup_table : List Nat
deriving DecidableEq, Repr

/-- `UniformBinarySearch::new`: no cached length, all-zero table. -/
def UniformBinarySearch.new : UniformBinarySearch :=
  { last_arr_size := none, lookup_table := List.replicate 64 0 }

/-- The loop of `update_lookup_table`: `half = power`, `power <<= 1`
(wrapping on `usize`, hence the `% 2 ^ 64`; the source's shift silently
overflows to 0 at `power = 2^63`, after which the division panics),
`table[i] = (len + half) / power`, stop at the first zero entry. -/
def lut_loop (len : Nat) (tbl : List Nat) (power i fuel : Nat) :
    Except RustPanic (List Nat) :=
  match fuel with
  | 0 => .error .fuelOut
  | fuel + 1 =>
    let half := power
    let power2 := power * 2 % 2 ^ 64
    if power2 = 0 then .error .divByZero
    else if i < tbl.length then
      let entry := (len + half) / power2
      let tbl2 := tbl.set i entry
      if entry = 0 then .ok tbl2
      else lut_loop len tbl2 power2 (i + 1) fuel
    else .error .outOfBounds

/-- `UniformBinarySearch::update_lookup_table` (note: it does not touch
`last_arr_size`). -/
def UniformBinarySearch.update_lookup_table (s : UniformBinarySearch) (len : Nat) :
    Except RustPanic UniformBinarySearch :=
  match lut_loop len s.lookup_table 1 0 65 with
  | .error p => .error p
  | .ok tbl => .ok { s with lookup_table := tbl }

/-- The loop of `inner_search`: stop with `None` at a zero table entry,
otherwise compare and move the probe by the next table entry.  The source's
`index -= ...` underflows on `usize` when the step exceeds the index. -/
def inner_loop (target : Int) (arr : List Int) (tbl : List Nat)
    (index d fuel : Nat) : Except RustPanic (Option Nat) :=
  match fuel with
  | 0 => .error .fuelOut
  | fuel + 1 =>
    match tbl.get? d with
    | none => .error .outOfBounds
    | some td =>
      if td = 0 then .ok none
      else
        match arr.get? index with
        | none => .error .outOfBounds
        | some v =>
          if v = target then .ok (some index)
          else if v < target then
            match tbl.get? (d + 1) with
            | none => .error .outOfBounds
            | some t1 => inner_loop target arr tbl (index + t1) (d + 1) fuel
          else
            match tbl.get? (d + 1) with
            | none => .error .outOfBounds
            | some t1 =>
              if t1 ≤ index then inner_loop target arr tbl (index - t1) (d + 1) fuel
              else .error .underflow

/-- `UniformBinarySearch::inner_search`: start at `lookup_table[0] - 1`
(underflowing when the first entry is zero). -/
def UniformBinarySearch.inner_search (s : UniformBinarySearch) (target : Int)
    (arr : List Int) : Except RustPanic (Option Nat) :=
  match s.lookup_table.get? 0 with
  | none => .error .outOfBounds
  | some t0 =>
    if t0 = 0 then .error .underflow
    else inner_loop target arr s.lookup_table (t0 - 1) 0 66

/-- `UniformBinarySearch::search`: validate sortedness, return `None` on an
empty array, rebuild the table when the cached length is absent or differs
(since the code never assigns `last_arr_size`, the cache is always absent),
then run the table-driven search. -/
def UniformBinarySearch.search (s : UniformBinarySearch) (target : Int)
    (arr : List Int) : Except RustPanic (UniformBinarySearch × Option Nat) :=
  if is_sorted arr = false then .error .unsorted
  else if arr.isEmpty then .ok (s, none)
  else
    let need_update : Bool :=
      match s.last_arr_size with
      | some last => decide (last ≠ arr.length)
      | none => true
    match (if need_update then s.update_lookup_table arr.length else .ok s) with
    | .error p => .error p
    | .ok s2 =>
      match s2.inner_search target arr with
      | .error p => .error p
      | .ok r => .ok (s2, r)

/-- C1 (code bug).  The claim says a search on a length-3 array moves the
searcher to state `Cached(3)`, but `search` never assigns `last_arr_size`:
after a successful search the cached length is still `None`, so every later
search recomputes the table. -/
theorem c1_cache_never_set :
    (UniformBinarySearch.new.search 2 [1, 2, 3]).map (fun p => p.1.last_arr_size)
      = .ok none ∧
    UniformBinarySearch.new.search 2 [1, 2, 3]
      = .ok ({ last_arr_size := none,
               lookup_table := [2, 1, 0] ++ List.replicate 61 0 }, some 1) := by
  constructor <;> rfl

/-! ### The step-table entries -/

/-- The entry the table loop computes at depth `i` for array length `len`. -/
def lut_entry (len i : Nat) : Nat := (len + 2 ^ i) / 2 ^ (i + 1)

/-- The closed form of a table entry: the difference of successive halvings. -/
theorem lut_entry_eq_sub (len i : Nat) :
    lut_entry len i = len / 2 ^ i - len / 2 ^ (i + 1) := by
  have hP : 0 < 2 ^ i := Nat.pos_pow_of_pos i (by omega)
  set P := 2 ^ i with hPdef
  have h2P : 2 ^ (i + 1) = 2 * P := by rw [hPdef, pow_succ]; ring
  have hq := Nat.div_add_mod len (2 * P)
  set q := len / (2 * P) with hqdef
  set r := len % (2 * P) with hrdef
  have hr : r < 2 * P := Nat.mod_lt _ (by omega)
  have hlen : len = 2 * P * q + r := by omega
  have hdivP : len / P = r / P + 2 * q := by
    rw [hlen, show 2 * P * q + r = r + P * (2 * q) by ring,
      Nat.add_mul_div_left _ _ hP]
  have hdiv2P : (len + P) / (2 * P) = (r + P) / (2 * P) + q := by
    rw [hlen, show 2 * P * q + r + P = r + P + 2 * P * q by ring,
      Nat.add_mul_div_left _ _ (by omega : 0 < 2 * P)]
  have hgoal : lut_entry len i = (r + P) / (2 * P) + q := by
    rw [lut_entry, h2P, hPdef] at *
    exact hdiv2P
  by_cases hrP : r < P
  · have h1 : r / P = 0 := Nat.div_eq_of_lt hrP
    have h2 : (r + P) / (2 * P) = 0 := Nat.div_eq_of_lt (by omega)
    rw [hgoal, h2, hdivP, h2P, h1]
    omega
  · have h1 : r / P = 1 := Nat.div_eq_of_lt_le (by omega) (by omega)
    have h2 : (r + P) / (2 * P) = 1 := Nat.div_eq_of_lt_le (by omega) (by omega)
    rw [hgoal, h2, hdivP, h2P, h1]
    omega

/-- An entry is nonzero exactly when the halving at that depth is nonzero. -/
theorem lut_entry_pos_iff (len i : Nat) : 0 < lut_entry len i ↔ 2 ^ i ≤ len := by
  have h2P : (2 : Nat) ^ (i + 1) = 2 * 2 ^ i := by rw [pow_succ]; ring
  constructor
  · intro h
    by_contra hcon
    have : len + 2 ^ i < 2 ^ (i + 1) := by omega
    have := Nat.div_eq_of_lt this
    rw [lut_entry] at h
    omega
  · intro h
    apply Nat.div_pos (by omega) (by positivity)

/-- Invariant lemma for the table-construction loop under the documented
capacity (lengths below `2 ^ 62`): it succeeds, writing the entry formula up
to and including the first zero entry and leaving later entries untouched. -/
theorem lut_loop_spec (len : Nat) (hcap : len < 2 ^ 62) :
    ∀ fuel i cur, cur.length = 64 → 64 - i < fuel → i ≤ 62 →
    (∀ j, j < i → lut_entry len j ≠ 0) →
    (∀ m, m < i → cur.get? m = some (lut_entry len m)) →
    ∃ tbl k, lut_loop len cur (2 ^ i) i fuel = .ok tbl ∧ tbl.length = 64 ∧
      i ≤ k ∧ k < 64 ∧ lut_entry len k = 0 ∧
      (∀ j, j < k → lut_entry len j ≠ 0) ∧
      (∀ m, m ≤ k → tbl.get? m = some (lut_entry len m)) ∧
      (∀ m, k < m → tbl.get? m = cur.get? m) := by
  intro fuel
  induction fuel with
  | zero => intro i cur _ hf _ _ _; omega
  | succ fuel ih =>
    intro i cur hlen hf hi hpath hcur
    have hpow : (2 : Nat) ^ i * 2 % 2 ^ 64 = 2 ^ (i + 1) := by
      rw [show (2 : Nat) ^ i * 2 = 2 ^ (i + 1) by rw [pow_succ]]
      apply Nat.mod_eq_of_lt
      apply Nat.pow_lt_pow_right (by omega)
      omega
    have hpow_ne : ¬ ((2 : Nat) ^ i * 2 % 2 ^ 64 = 0) := by
      rw [hpow]; positivity
    have hil : i < cur.length := by omega
    have hE : (len + 2 ^ i) / (2 ^ i * 2 % 2 ^ 64) = lut_entry len i := by
      rw [hpow]; rfl
    by_cases hz : lut_entry len i = 0
    · refine ⟨cur.set i (lut_entry len i), i, ?_, ?_, le_refl _, by omega, hz, hpath, ?_, ?_⟩
      · simp only [lut_loop]
        rw [if_neg hpow_ne, if_pos hil, hE, if_pos hz]
      · rw [List.length_set]; exact hlen
      · intro m hm
        rcases Nat.lt_or_ge m i with h | h
        · rw [List.get?_set_ne _ _ (by omega)]
          exact hcur m h
        · have : m = i := by omega
          rw [this]
          exact List.get?_set_eq_of_lt _ hil
      · intro m hm
        rw [List.get?_set_ne _ _ (by omega)]
    · have hge : 2 ^ i ≤ len := (lut_entry_pos_iff len i).mp (by omega)
      have hile : i ≤ 61 := by
        by_contra hcon
        have hi62 : i = 62 := by omega
        rw [hi62] at hge
        omega
      have hstep : lut_loop len cur (2 ^ i) i (fuel + 1)
          = lut_loop len (cur.set i (lut_entry len i)) (2 ^ (i + 1)) (i + 1) fuel := by
        simp only [lut_loop]
        rw [if_neg hpow_ne, if_pos hil, hE, if_neg hz, hpow]
      have hpath2 : ∀ j, j < i + 1 → lut_entry len j ≠ 0 := by
        intro j hj
        rcases Nat.lt_or_ge j i with h | h
        · exact hpath j h
        · have : j = i := by omega
          rw [this]; exact hz
      have hcur2 : ∀ m, m < i + 1 → (cur.set i (lut_entry len i)).get? m
          = some (lut_entry len m) := by
        intro m hm
        rcases Nat.lt_or_ge m i with h | h
        · rw [List.get?_set_ne _ _ (by omega)]
          exact hcur m h
        · have : m = i := by omega
          rw [this]
          exact List.get?_set_eq_of_lt _ hil
      rcases ih (i + 1) (cur.set i (lut_entry len i))
          (by rw [List.length_set]; exact hlen) (by omega) (by omega) hpath2 hcur2 with
        ⟨tbl, k, heq, h1, h2, h3, h4, h5, h6, h7⟩
      refine ⟨tbl, k, ?_, h1, by omega, h3, h4, h5, h6, ?_⟩
      · rw [hstep]; exact heq
      · intro m hm
        rw [h7 m hm, List.get?_set_ne _ _ (by omega)]

/-- `update_lookup_table` on a length-64 table succeeds for lengths within the
documented capacity and produces the entry formula up to the first zero. -/
theorem update_lookup_table_spec (s : UniformBinarySearch) (len : Nat)
    (hlen : s.lookup_table.length = 64) (hcap : len < 2 ^ 62) :
    ∃ s2 k, s.update_lookup_table len = .ok s2 ∧
      s2.last_arr_size = s.last_arr_size ∧ s2.lookup_table.length = 64 ∧
      k < 64 ∧ lut_entry len k = 0 ∧ (∀ j, j < k → lut_entry len j ≠ 0) ∧
      (∀ m, m ≤ k → s2.lookup_table.get? m = some (lut_entry len m)) ∧
      (∀ m, k < m → s2.lookup_table.get? m = s.lookup_table.get? m) := by
  rcases lut_loop_spec len hcap 65 0 s.lookup_table hlen (by omega) (by omega)
      (by intro j hj; omega) (by intro m hm; omega) with
    ⟨tbl, k, heq, h1, _, h3, h4, h5, h6, h7⟩
  rw [pow_zero] at heq
  refine ⟨{ s with lookup_table := tbl }, k, ?_, rfl, h1, h3, h4, h5, h6, h7⟩
  simp only [UniformBinarySearch.update_lookup_table, heq]

/-- Entries whose predecessors are all nonzero carry the entry formula. -/
theorem table_agree (len : Nat) (tbl : List Nat) (k : Nat)
    (hk : lut_entry len k = 0)
    (h1 : ∀ m, m ≤ k → tbl.get? m = some (lut_entry len m)) :
    ∀ i, i < 64 → (∀ j, j < i → lut_entry len j ≠ 0) →
      tbl.get? i = some (lut_entry len i) := by
  intro i _ hpath
  rcases le_or_lt i k with h | h
  · exact h1 i h
  · exact absurd hk (hpath k h)

/-- C5 (confirmed).  Table construction computes `table[i] = (L + half) /
power` with `half = 2^i` and `power = 2^(i+1)`, stopping at the first zero
entry (later entries of a fresh table stay zero, which the formula also
gives); for length 8 the resulting table is `[4, 2, 1, 1, 0]` padded with
zeros. -/
theorem c5_table_construction (L : Nat) (hcap : L < 2 ^ 62) :
    (∃ s2, UniformBinarySearch.new.update_lookup_table L = .ok s2 ∧
      ∀ i, i < 64 → s2.lookup_table.get? i = some ((L + 2 ^ i) / 2 ^ (i + 1))) ∧
    UniformBinarySearch.new.update_lookup_table 8
      = .ok { last_arr_size := none,
              lookup_table := [4, 2, 1, 1, 0] ++ List.replicate 59 0 } := by
  constructor
  · rcases update_lookup_table_spec UniformBinarySearch.new L
        (by simp [UniformBinarySearch.new]) hcap with
      ⟨s2, k, heq, _, hlen2, hk64, hkz, hpathk, hle, hgt⟩
    refine ⟨s2, heq, ?_⟩
    intro i hi
    show s2.lookup_table.get? i = some (lut_entry L i)
    rcases le_or_lt i k with h | h
    · exact hle i h
    · rw [hgt i h]
      have hi2 : i < (List.replicate 64 (0 : Nat)).length := by
        rw [List.length_replicate]; omega
      have hrep : (List.replicate 64 (0 : Nat)).get? i = some 0 := by
        rw [List.get?_eq_get hi2, List.get_replicate]
      rw [show UniformBinarySearch.new.lookup_table = List.replicate 64 0 from rfl, hrep]
      have hLk : L < 2 ^ k := by
        by_contra hcon
        have := (lut_entry_pos_iff L k).mpr (by omega)
        omega
      have hLi : L < 2 ^ i :=
        lt_of_lt_of_le hLk (Nat.pow_le_pow_right (by omega) (by omega))
      have hzero : lut_entry L i = 0 := by
        rw [lut_entry]
        apply Nat.div_eq_of_lt
        rw [pow_succ]
        omega
      rw [hzero]
  · rfl

/-! ### Correctness of the table-driven inner search -/

/-- Main invariant lemma for `inner_loop` when the target occurs in the
(sorted) array.  The invariant tracks the candidate window `[lo, hi]`, the
halving sizes `len / 2^d`, and that the probe sits at one of the two
table-step positions relative to the window; it both rules out the index
underflow and out-of-bounds accesses and forces the loop to land on an
occurrence of the target. -/
theorem inner_loop_finds (target : Int) (arr : List Int)
    (hmono : ∀ i j : Nat, i ≤ j → j < arr.length → arr.getD i 0 ≤ arr.getD j 0)
    (hcap : arr.length < 2 ^ 62) (tbl : List Nat)
    (htbl : ∀ i, i < 64 → (∀ j, j < i → lut_entry arr.length j ≠ 0) →
      tbl.get? i = some (lut_entry arr.length i)) :
    ∀ fuel d idx lo hi,
    arr.length / 2 ^ d < 2 ^ fuel →
    (∀ j, j < arr.length → arr.getD j 0 = target → lo ≤ j ∧ j ≤ hi) →
    (∃ j, j < arr.length ∧ arr.getD j 0 = target ∧ lo ≤ j ∧ j ≤ hi) →
    hi < arr.length →
    hi + 1 ≤ lo + arr.length / 2 ^ d →
    (∀ j, j < d → lut_entry arr.length j ≠ 0) →
    ((idx + 1 = lo + lut_entry arr.length d ∧
        lo + arr.length / 2 ^ d ≤ arr.length + 1) ∨
      (idx + lut_entry arr.length d = hi + 1 ∧
        arr.length / 2 ^ d ≤ hi + 2)) →
    ∃ j, j < arr.length ∧
      inner_loop target arr tbl idx d fuel = .ok (some j) ∧ arr.getD j 0 = target := by
  intro fuel
  induction fuel with
  | zero =>
    intro d idx lo hi hfuel _ hex _ hsize _ _
    exfalso
    rcases hex with ⟨j, hj, _, hlo, hhi2⟩
    have : 0 < arr.length / 2 ^ d := by omega
    simp at hfuel
    omega
  | succ fuel ih =>
    intro d idx lo hi hfuel hocc hex hhi hsize hpath hform
    rcases hex with ⟨j0, hj0, hj0t, hj0lo, hj0hi⟩
    set len := arr.length with hlendef
    set m0 := len / 2 ^ d with hm0def
    set m1 := len / 2 ^ (d + 1) with hm1def
    set m2 := len / 2 ^ (d + 2) with hm2def
    have hm1eq : m1 = m0 / 2 := by
      rw [hm1def, hm0def, pow_succ, ← Nat.div_div_eq_div_mul]
    have hm2eq : m2 = m1 / 2 := by
      rw [hm2def, hm1def, pow_succ, ← Nat.div_div_eq_div_mul]
    have hTdeq : lut_entry len d = m0 - m1 := lut_entry_eq_sub len d
    have hT1eq : lut_entry len (d + 1) = m1 - m2 := lut_entry_eq_sub len (d + 1)
    set Td := lut_entry len d with hTddef
    set T1 := lut_entry len (d + 1) with hT1def
    have hm0pos : 0 < m0 := by
      have h2d : 2 ^ d ≤ len := by
        by_contra hcon
        have : len / 2 ^ d = 0 := Nat.div_eq_of_lt (by omega)
        omega
      rw [hm0def]
      exact Nat.div_pos h2d (by positivity)
    have hTdpos : 0 < Td := by omega
    have hd62 : d < 62 := by
      have h2d : 2 ^ d ≤ len := by
        by_contra hcon
        have : len / 2 ^ d = 0 := Nat.div_eq_of_lt (by omega)
        omega
      by_contra hcon
      have : (2 : Nat) ^ 62 ≤ 2 ^ d := Nat.pow_le_pow_right (by omega) (by omega)
      omega
    have hpath2 : ∀ j, j < d + 1 → lut_entry len j ≠ 0 := by
      intro j hj
      rcases Nat.lt_or_ge j d with h | h
      · exact hpath j h
      · have : j = d := by omega
        rw [this]
        omega
    have hread_d : tbl.get? d = some Td := htbl d (by omega) hpath
    have hread_d1 : tbl.get? (d + 1) = some T1 := htbl (d + 1) (by omega) hpath2
    have hidx : idx < len := by
      rcases hform with ⟨hfA, hA⟩ | ⟨hfB, _⟩
      · rcases Nat.eq_zero_or_pos m1 with h | h
        · omega
        · omega
      · omega
    have hread_arr : arr.get? idx = some (arr.getD idx 0) := get?_eq_some_getD arr idx hidx
    set v := arr.getD idx 0 with hvdef
    by_cases hveq : v = target
    · refine ⟨idx, hidx, ?_, hveq⟩
      simp only [inner_loop, hread_d, if_neg (by omega : ¬ Td = 0), hread_arr,
        if_pos hveq]
    · by_cases hvlt : v < target
      · -- Less branch
        have hjgt : ∀ j, j < len → arr.getD j 0 = target → idx < j := by
          intro j hj hjt
          by_contra hcon
          have := hmono j idx (by omega) hidx
          omega
        have hstep : inner_loop target arr tbl idx d (fuel + 1)
            = inner_loop target arr tbl (idx + T1) (d + 1) fuel := by
          simp only [inner_loop, hread_d, if_neg (by omega : ¬ Td = 0), hread_arr,
            if_neg hveq, if_pos hvlt, hread_d1]
        rw [hstep]
        have hfuel2 : len / 2 ^ (d + 1) < 2 ^ fuel := by
          have h2f : (2 : Nat) ^ (fuel + 1) = 2 * 2 ^ fuel := by rw [pow_succ]; ring
          omega
        have hocc2 : ∀ j, j < len → arr.getD j 0 = target → idx + 1 ≤ j ∧ j ≤ hi := by
          intro j hj hjt
          exact ⟨hjgt j hj hjt, (hocc j hj hjt).2⟩
        have hex2 : ∃ j, j < len ∧ arr.getD j 0 = target ∧ idx + 1 ≤ j ∧ j ≤ hi :=
          ⟨j0, hj0, hj0t, hjgt j0 hj0 hj0t, hj0hi⟩
        have hform2 : (idx + T1 + 1 = (idx + 1) + T1 ∧
              (idx + 1) + m1 ≤ len + 1) ∨
            (idx + T1 + T1 = hi + 1 ∧ m1 ≤ hi + 2) := by
          left
          constructor
          · omega
          · rcases hform with ⟨hfA, hA⟩ | ⟨hfB, hB⟩
            · omega
            · omega
        exact ih (d + 1) (idx + T1) (idx + 1) hi hfuel2 hocc2 hex2 hhi
          (by rcases hform with ⟨hfA, hA⟩ | ⟨hfB, hB⟩ <;> omega) hpath2 hform2
      · -- Greater branch
        have hvgt : target < v := by
          rcases lt_trichotomy v target with h | h | h
          · exact absurd h hvlt
          · exact absurd h hveq
          · exact h
        have hjlt : ∀ j, j < len → arr.getD j 0 = target → j < idx := by
          intro j hj hjt
          by_contra hcon
          have := hmono idx j (by omega) hj
          omega
        have hidx1 : lo + 1 ≤ idx := by
          have := hjlt j0 hj0 hj0t
          omega
        have hT1le : T1 ≤ idx := by
          rcases hform with ⟨hfA, hA⟩ | ⟨hfB, hB⟩
          · omega
          · omega
        have hstep : inner_loop target arr tbl idx d (fuel + 1)
            = inner_loop target arr tbl (idx - T1) (d + 1) fuel := by
          simp only [inner_loop, hread_d, if_neg (by omega : ¬ Td = 0), hread_arr,
            if_neg hveq, if_neg hvlt, hread_d1, if_pos hT1le]
        rw [hstep]
        have hfuel2 : len / 2 ^ (d + 1) < 2 ^ fuel := by
          have h2f : (2 : Nat) ^ (fuel + 1) = 2 * 2 ^ fuel := by rw [pow_succ]; ring
          omega
        have hocc2 : ∀ j, j < len → arr.getD j 0 = target → lo ≤ j ∧ j ≤ idx - 1 := by
          intro j hj hjt
          have := hjlt j hj hjt
          exact ⟨(hocc j hj hjt).1, by omega⟩
        have hex2 : ∃ j, j < len ∧ arr.getD j 0 = target ∧ lo ≤ j ∧ j ≤ idx - 1 :=
          ⟨j0, hj0, hj0t, hj0lo, by have := hjlt j0 hj0 hj0t; omega⟩
        have hform2 : (idx - T1 + 1 = lo + T1 ∧ lo + m1 ≤ len + 1) ∨
            (idx - T1 + T1 = (idx - 1) + 1 ∧ m1 ≤ (idx - 1) + 2) := by
          right
          constructor
          · omega
          · rcases hform with ⟨hfA, hA⟩ | ⟨hfB, hB⟩
            · omega
            · omega
        exact ih (d + 1) (idx - T1) lo (idx - 1) hfuel2 hocc2 hex2 (by omega)
          (by rcases hform with ⟨hfA, hA⟩ | ⟨hfB, hB⟩ <;> omega) hpath2 hform2

/-- Found-correctness of `UniformBinarySearch::search` for any searcher state
with no cached length (the code never sets one, so every reachable state
qualifies) and a length-64 table, on sorted arrays within the documented
capacity. -/
theorem uniform_search_finds (target : Int) (arr : List Int)
    (hs : is_sorted arr = true) (hcap : arr.length < 2 ^ 62)
    (s : UniformBinarySearch) (hnone : s.last_arr_size = none)
    (hlen64 : s.lookup_table.length = 64)
    (hocc : ∃ i, i < arr.length ∧ arr.getD i 0 = target) :
    ∃ j, j < arr.length ∧
      (s.search target arr).map Prod.snd = .ok (some j) ∧ arr.getD j 0 = target := by
  rcases hocc with ⟨i0, hi0, hi0t⟩
  have hmono := sorted_getD_mono arr hs
  have hlen1 : 1 ≤ arr.length := by omega
  rcases update_lookup_table_spec s arr.length hlen64 hcap with
    ⟨s2, k, hupd, hs2last, hs2len, hk64, hkz, hpathk, hle, _⟩
  have hagree := table_agree arr.length s2.lookup_table k hkz hle
  have hT0pos : 0 < lut_entry arr.length 0 := by
    rw [lut_entry_pos_iff, pow_zero]
    omega
  have hread0 : s2.lookup_table.get? 0 = some (lut_entry arr.length 0) :=
    hagree 0 (by omega) (by intro j hj; omega)
  have hfuel : arr.length / 2 ^ 0 < 2 ^ 66 := by
    have : (2 : Nat) ^ 62 ≤ 2 ^ 66 := Nat.pow_le_pow_right (by omega) (by omega)
    rw [pow_zero, Nat.div_one]
    omega
  rcases inner_loop_finds target arr hmono hcap s2.lookup_table hagree 66 0
      (lut_entry arr.length 0 - 1) 0 (arr.length - 1) hfuel
      (by intro j hj _; omega)
      ⟨i0, hi0, hi0t, by omega, by omega⟩
      (by omega)
      (by rw [pow_zero, Nat.div_one]; omega)
      (by intro j hj; omega)
      (by
        left
        constructor
        · omega
        · rw [pow_zero, Nat.div_one]; omega) with
    ⟨j, hj, hinner, hjt⟩
  refine ⟨j, hj, ?_, hjt⟩
  have hsearch : s.search target arr
      = match s2.inner_search target arr with
        | .error p => .error p
        | .ok r => .ok (s2, r) := by
    simp only [UniformBinarySearch.search]
    rw [if_neg (by rw [hs]; simp), if_neg (not_isEmpty_of_pos arr (by omega))]
    simp only [hnone, if_pos rfl, hupd]
    rw [if_pos trivial]
  have hinner_eq : s2.inner_search target arr = .ok (some j) := by
    simp only [UniformBinarySearch.inner_search, hread0,
      if_neg (by omega : ¬ lut_entry arr.length 0 = 0)]
    exact hinner
  rw [hsearch, hinner_eq]
  rfl

/-! ### Interpolation search (`variations/interpolation_search.rs`) -/

/-- The loop of `interpolation_search`: run while `left <= right` and the
target lies strictly between `arr[left]` and `arr[right]`; probe at
`left + f(target, arr[left], arr[right])`, narrow as in binary search
(`right = middle - 1` underflows on `usize` at `middle = 0`), then
return `left` early if `arr[left]` has become the target.  The loop can
genuinely diverge for adversarial estimators, so fuel exhaustion is reported
as `none` (the entry points pass enough fuel for the linear estimator). -/
def interp_loop (f : Int → Int → Int → Nat) (target : Int) (arr : List Int)
    (left right fuel : Nat) : Option (Except RustPanic (Option Nat)) :=
  match fuel with
  | 0 => none
  | fuel + 1 =>
    if left ≤ right then
      match arr.get? right with
      | none => some (.error .outOfBounds)
      | some vr =>
        if target < vr then
          match arr.get? left with
          | none => some (.error .outOfBounds)
          | some vl =>
            if vl < target then
              match arr.get? (left + f target vl vr) with
              | none => some (.error .outOfBounds)
              | some vm =>
                if vm < target then
                  match arr.get? (left + f target vl vr + 1) with
                  | none => some (.error .outOfBounds)
                  | some vl2 =>
                    if vl2 = target then some (.ok (some (left + f target vl vr + 1)))
                    else interp_loop f target arr (left + f target vl vr + 1) right fuel
                else if vm = target then some (.ok (some (left + f target vl vr)))
                else
                  if left + f target vl vr = 0 then some (.error .underflow)
                  else if vl = target then some (.ok (some left))
                  else interp_loop f target arr left (left + f target vl vr - 1) fuel
            else some (.ok none)
        else some (.ok none)
    else some (.ok none)

/-- `variations::interpolation_search` with a pluggable estimator. -/
def interpolation_search (f : Int → Int → Int → Nat) (target : Int)
    (arr : List Int) : Option (Except RustPanic (Option Nat)) :=
  if is_sorted arr = false then some (.error .unsorted)
  else if arr.isEmpty then some (.ok none)
  else interp_loop f target arr 0 (arr.length - 1) (arr.length + 1)

/-- The linear estimator `(target - left_value) / (right_value - left_value)`
(an unscaled value ratio; inside the loop guard it is always zero). -/
def linear_estimate (t l r : Int) : Nat := ((t - l) / (r - l)).toNat

/-- `variations::linear_interpolation_search`. -/
def linear_interpolation_search (target : Int) (arr : List Int) :
    Option (Except RustPanic (Option Nat)) :=
  interpolation_search linear_estimate target arr

/-- Inside the guard (`l < t < r`) the linear estimator is zero: the value
difference is smaller than the value range, so the integer quotient vanishes. -/
theorem linear_estimate_eq_zero (t l r : Int) (h1 : l < t) (h2 : t < r) :
    linear_estimate t l r = 0 := by
  rw [linear_estimate]
  have h3 : (t - l) / (r - l) = 0 := by
    apply Int.ediv_eq_zero_of_lt (by omega) (by omega)
  rw [h3]
  rfl

/-- With the linear estimator the loop degenerates into a left-to-right scan;
starting strictly below an occurrence and inside the guard it reaches one. -/
theorem interp_loop_linear_scan (target : Int) (arr : List Int)
    (hmono : ∀ i j : Nat, i ≤ j → j < arr.length → arr.getD i 0 ≤ arr.getD j 0)
    (j0 : Nat) (hj0 : j0 < arr.length) (hj0t : arr.getD j0 0 = target)
    (hlast : target < arr.getD (arr.length - 1) 0) :
    ∀ fuel left, left < j0 → arr.getD left 0 < target → j0 - left < fuel →
    ∃ jr, jr < arr.length ∧
      interp_loop linear_estimate target arr left (arr.length - 1) fuel
        = some (.ok (some jr)) ∧ arr.getD jr 0 = target := by
  have hj0last : j0 < arr.length - 1 := by
    have : j0 ≠ arr.length - 1 := by
      intro h
      rw [h] at hj0t
      omega
    omega
  intro fuel
  induction fuel with
  | zero => intro left hlj _ hf; omega
  | succ fuel ih =>
    intro left hlj hvl hf
    have hlr : left ≤ arr.length - 1 := by omega
    have hrlt : arr.length - 1 < arr.length := by omega
    have hread_r : arr.get? (arr.length - 1) = some (arr.getD (arr.length - 1) 0) :=
      get?_eq_some_getD arr _ hrlt
    have hread_l : arr.get? left = some (arr.getD left 0) :=
      get?_eq_some_getD arr left (by omega)
    set vl := arr.getD left 0 with hvldef
    set vr := arr.getD (arr.length - 1) 0 with hvrdef
    have hest : linear_estimate target vl vr = 0 :=
      linear_estimate_eq_zero target vl vr hvl hlast
    have hmid : left + linear_estimate target vl vr = left := by rw [hest]; omega
    have hread_l1 : arr.get? (left + 1) = some (arr.getD (left + 1) 0) :=
      get?_eq_some_getD arr (left + 1) (by omega)
    set vl2 := arr.getD (left + 1) 0 with hvl2def
    by_cases hv2 : vl2 = target
    · refine ⟨left + 1, by omega, ?_, hv2⟩
      simp only [interp_loop, if_pos hlr, hread_r, if_pos hlast, hread_l, if_pos hvl,
        hmid, hread_l, if_pos hvl, hread_l1, if_pos hv2]
    · have hv2lt : vl2 < target := by
        have h1 : vl2 ≤ arr.getD j0 0 := hmono (left + 1) j0 (by omega) hj0
        rw [hj0t] at h1
        rcases lt_or_eq_of_le h1 with h | h
        · exact h
        · exact absurd h hv2
      have hlj2 : left + 1 < j0 := by
        by_contra hcon
        have hj0eq : left + 1 = j0 := by omega
        have : vl2 = target := by rw [hvl2def, hj0eq, hj0t]
        exact hv2 this
      have hstep : interp_loop linear_estimate target arr left (arr.length - 1) (fuel + 1)
          = interp_loop linear_estimate target arr (left + 1) (arr.length - 1) fuel := by
        simp only [interp_loop, if_pos hlr, hread_r, if_pos hlast, hread_l, if_pos hvl,
          hmid, hread_l, if_pos hvl, hread_l1, if_neg hv2]
      rw [hstep]
      exact ih (left + 1) hlj2 hv2lt (by omega)

/-- Found-correctness of `linear_interpolation_search` for targets strictly
inside the value range of the (sorted) array. -/
theorem linear_interp_finds_interior (target : Int) (arr : List Int)
    (hs : is_sorted arr = true)
    (hfirst : arr.getD 0 0 < target)
    (hlast : target < arr.getD (arr.length - 1) 0)
    (hocc : ∃ i, i < arr.length ∧ arr.getD i 0 = target) :
    ∃ j, j < arr.length ∧
      linear_interpolation_search target arr = some (.ok (some j)) ∧
      arr.getD j 0 = target := by
  rcases hocc with ⟨j0, hj0, hj0t⟩
  have hmono := sorted_getD_mono arr hs
  have hj0pos : 0 < j0 := by
    rcases Nat.eq_zero_or_pos j0 with h | h
    · rw [h] at hj0t
      omega
    · exact h
  rcases interp_loop_linear_scan target arr hmono j0 hj0 hj0t hlast
      (arr.length + 1) 0 hj0pos hfirst (by omega) with ⟨jr, hjr, heq, hjrt⟩
  refine ⟨jr, hjr, ?_, hjrt⟩
  show interpolation_search linear_estimate target arr = some (.ok (some jr))
  simp only [interpolation_search]
  rw [if_neg (by rw [hs]; simp), if_neg (not_isEmpty_of_pos arr (by omega))]
  exact heq

/-- Found-correctness of the public `binary_search` on sorted input. -/
theorem binary_search_finds (target : Int) (arr : List Int)
    (hs : is_sorted arr = true)
    (hocc : ∃ i, i < arr.length ∧ arr.getD i 0 = target) :
    ∃ j, j < arr.length ∧ binary_search target arr = .ok (some j) ∧
      arr.getD j 0 = target := by
  rcases hocc with ⟨i, hi, hit⟩
  have hmono := sorted_getD_mono arr hs
  have hge : arr.getD 0 0 ≤ target := by
    have := hmono 0 i (by omega) hi
    omega
  rcases core_binary_search_spec target arr hs (by omega) hge with h | h
  · rcases h with ⟨j, hj, heq, hjt⟩
    refine ⟨j, hj, ?_, hjt⟩
    simp only [binary_search]
    rw [if_neg (by rw [hs]; simp), if_neg (not_isEmpty_of_pos arr (by omega))]
    exact heq
  · exact absurd hit (h.2 i hi)

/-- C3 (amended; confirmed for the amended statement).  For every sorted
sequence and every index `i`, searching for `sequence[i]` with
`binary_search` and `exponential_search` returns a valid index holding that
value; so does `UniformBinarySearch::search` from any cache-less searcher
state within the documented table capacity; `linear_interpolation_search`
does so provided the target lies strictly between the first and the last
element (at the boundary it returns `None`; see the counterexample). -/
theorem c3_found_correctness (arr : List Int) (i : Nat)
    (hs : is_sorted arr = true) (hi : i < arr.length) :
    (∃ j, j < arr.length ∧ binary_search (arr.getD i 0) arr = .ok (some j) ∧
      arr.getD j 0 = arr.getD i 0) ∧
    (∃ j, j < arr.length ∧ exponential_search (arr.getD i 0) arr = .ok (some j) ∧
      arr.getD j 0 = arr.getD i 0) ∧
    (∀ s : UniformBinarySearch, s.last_arr_size = none →
      s.lookup_table.length = 64 → arr.length < 2 ^ 62 →
      ∃ j, j < arr.length ∧
        (s.search (arr.getD i 0) arr).map Prod.snd = .ok (some j) ∧
        arr.getD j 0 = arr.getD i 0) ∧
    (arr.getD 0 0 < arr.getD i 0 → arr.getD i 0 < arr.getD (arr.length - 1) 0 →
      ∃ j, j < arr.length ∧
        linear_interpolation_search (arr.getD i 0) arr = some (.ok (some j)) ∧
        arr.getD j 0 = arr.getD i 0) := by
  refine ⟨?_, ?_, ?_, ?_⟩
  · exact binary_search_finds (arr.getD i 0) arr hs ⟨i, hi, rfl⟩
  · exact exponential_search_finds (arr.getD i 0) arr hs ⟨i, hi, rfl⟩
  · intro s hnone hlen64 hcap
    exact uniform_search_finds (arr.getD i 0) arr hs hcap s hnone hlen64 ⟨i, hi, rfl⟩
  · intro h1 h2
    exact linear_interp_finds_interior (arr.getD i 0) arr hs h1 h2 ⟨i, hi, rfl⟩

theorem c3_found_correctness_witness :
    is_sorted [1, 2, 3, 4, 5] = true ∧ (2 : Nat) < 5 ∧
    ((∃ j, j < ([1, 2, 3, 4, 5] : List Int).length ∧
        binary_search (([1, 2, 3, 4, 5] : List Int).getD 2 0) [1, 2, 3, 4, 5]
          = .ok (some j) ∧
        ([1, 2, 3, 4, 5] : List Int).getD j 0 = ([1, 2, 3, 4, 5] : List Int).getD 2 0) ∧
    (∃ j, j < ([1, 2, 3, 4, 5] : List Int).length ∧
        exponential_search (([1, 2, 3, 4, 5] : List Int).getD 2 0) [1, 2, 3, 4, 5]
          = .ok (some j) ∧
        ([1, 2, 3, 4, 5] : List Int).getD j 0 = ([1, 2, 3, 4, 5] : List Int).getD 2 0) ∧
    (∀ s : UniformBinarySearch, s.last_arr_size = none →
      s.lookup_table.length = 64 → ([1, 2, 3, 4, 5] : List Int).length < 2 ^ 62 →
      ∃ j, j < ([1, 2, 3, 4, 5] : List Int).length ∧
        (s.search (([1, 2, 3, 4, 5] : List Int).getD 2 0) [1, 2, 3, 4, 5]).map Prod.snd
          = .ok (some j) ∧
        ([1, 2, 3, 4, 5] : List Int).getD j 0 = ([1, 2, 3, 4, 5] : List Int).getD 2 0) ∧
    (([1, 2, 3, 4, 5] : List Int).getD 0 0 < ([1, 2, 3, 4, 5] : List Int).getD 2 0 →
      ([1, 2, 3, 4, 5] : List Int).getD 2 0
          < ([1, 2, 3, 4, 5] : List Int).getD (([1, 2, 3, 4, 5] : List Int).length - 1) 0 →
      ∃ j, j < ([1, 2, 3, 4, 5] : List Int).length ∧
        linear_interpolation_search (([1, 2, 3, 4, 5] : List Int).getD 2 0) [1, 2, 3, 4, 5]
          = some (.ok (some j)) ∧
        ([1, 2, 3, 4, 5] : List Int).getD j 0 = ([1, 2, 3, 4, 5] : List Int).getD 2 0)) :=
  ⟨by decide, by decide, c3_found_correctness [1, 2, 3, 4, 5] 2 (by decide) (by decide)⟩

/-- C3 counterexample: the value 5 occurs (at index 0) in the sorted sequence
`[5]`, yet `linear_interpolation_search` returns `None` because its loop guard
requires the target to lie strictly between the boundary elements. -/
theorem c3_interp_misses_boundary :
    linear_interpolation_search 5 [5] = some (.ok none) ∧
    ([5] : List Int).getD 0 0 = 5 ∧
    linear_interpolation_search 3 [1, 3] = some (.ok none) ∧
    ([1, 3] : List Int).getD 1 0 = 3 := ⟨rfl, rfl, rfl, rfl⟩

/-- C7 (confirmed).  A sequence with an adjacent descending pair fails the
sortedness check, and every public operation raises the unsorted-input panic
before doing anything else. -/
theorem c7_unsorted_input_panics (target : Int) (arr : List Int)
    (hdesc : ∃ i, i + 1 < arr.length ∧ arr.getD (i + 1) 0 < arr.getD i 0) :
    binary_search target arr = .error .unsorted ∧
    leftmost_rank target arr = .error .unsorted ∧
    rightmost_rank target arr = .error .unsorted ∧
    exponential_search target arr = .error .unsorted ∧
    (∀ f, interpolation_search f target arr = some (.error .unsorted)) ∧
    linear_interpolation_search target arr = some (.error .unsorted) ∧
    ∀ s : UniformBinarySearch, s.search target arr = .error .unsorted := by
  rcases hdesc with ⟨i, hi, hd⟩
  have hf : is_sorted arr = false := is_sorted_eq_false_of_descent arr i hi hd
  refine ⟨?_, ?_, ?_, ?_, ?_, ?_, ?_⟩
  · simp only [binary_search, hf]
    rw [if_pos trivial]
  · simp only [leftmost_rank, hf]
    rw [if_pos trivial]
  · simp only [rightmost_rank, hf]
    rw [if_pos trivial]
  · simp only [exponential_search, hf]
    rw [if_pos trivial]
  · intro f
    simp only [interpolation_search, hf]
    rw [if_pos trivial]
  · show interpolation_search linear_estimate target arr = some (.error .unsorted)
    simp only [interpolation_search, hf]
    rw [if_pos trivial]
  · intro s
    simp only [UniformBinarySearch.search, hf]
    rw [if_pos trivial]

theorem c7_unsorted_input_panics_witness :
    (∃ i, i + 1 < ([1, 3, 2, 5] : List Int).length ∧
      ([1, 3, 2, 5] : List Int).getD (i + 1) 0 < ([1, 3, 2, 5] : List Int).getD i 0) ∧
    (binary_search 5 [1, 3, 2, 5] = .error .unsorted ∧
    leftmost_rank 5 [1, 3, 2, 5] = .error .unsorted ∧
    rightmost_rank 5 [1, 3, 2, 5] = .error .unsorted ∧
    exponential_search 5 [1, 3, 2, 5] = .error .unsorted ∧
    (∀ f, interpolation_search f 5 [1, 3, 2, 5] = some (.error .unsorted)) ∧
    linear_interpolation_search 5 [1, 3, 2, 5] = some (.error .unsorted) ∧
    ∀ s : UniformBinarySearch, s.search 5 [1, 3, 2, 5] = .error .unsorted) :=
  ⟨⟨1, by decide, by decide⟩,
    c7_unsorted_input_panics 5 [1, 3, 2, 5] ⟨1, by decide, by decide⟩⟩

/-- C8 (confirmed).  On the empty sequence every search returns `None`, both
rank queries return 0, the uniform searcher is untouched, and no violation is
raised, whatever the target. -/
theorem c8_empty_input (target : Int) :
    binary_search target [] = .ok none ∧
    exponential_search target [] = .ok none ∧
    linear_interpolation_search target [] = some (.ok none) ∧
    (∀ f, interpolation_search f target [] = some (.ok none)) ∧
    leftmost_rank target [] = .ok 0 ∧
    rightmost_rank target [] = .ok 0 ∧
    ∀ s : UniformBinarySearch, s.search target [] = .ok (s, none) :=
  ⟨rfl, rfl, rfl, fun _ => rfl, rfl, rfl, fun _ => rfl⟩

/-- C2 (code bug).  The spec says every search returns `None` for absent
targets, including targets below the first element; but there
`binary_search` and `exponential_search` underflow `middle - 1` on `usize`
and panic (target 0, array `[1]`), and `UniformBinarySearch::search`
underflows its index subtraction for even lengths (target 0, array `[1, 2]`).
Only the interpolation variant returns `None`.  (For absent targets strictly
between elements or above the last element the searches do return `None`.) -/
theorem c2_below_min_panics :
    binary_search 0 [1] = .error .underflow ∧
    core_binary_search 0 [1] = .error .underflow ∧
    exponential_search 0 [1] = .error .underflow ∧
    (UniformBinarySearch.new.search 0 [1, 2]).map Prod.snd = .error .underflow ∧
    linear_interpolation_search 0 [1] = some (.ok none) := by
  refine ⟨rfl, rfl, rfl, rfl, rfl⟩

/-! ### Cache-state insensitivity of the uniform searcher (C6) -/

/-- A successful `lut_loop` preserves the table length. -/
theorem lut_loop_ok_length (len : Nat) :
    ∀ fuel cur power i tbl, lut_loop len cur power i fuel = .ok tbl →
      tbl.length = cur.length := by
  intro fuel
  induction fuel with
  | zero => intro cur power i tbl h; simp [lut_loop] at h
  | succ fuel ih =>
    intro cur power i tbl h
    simp only [lut_loop] at h
    by_cases h0 : power * 2 % 2 ^ 64 = 0
    · rw [if_pos h0] at h
      simp at h
    · rw [if_neg h0] at h
      by_cases hil : i < cur.length
      · rw [if_pos hil] at h
        by_cases hz : (len + power) / (power * 2 % 2 ^ 64) = 0
        · rw [if_pos hz] at h
          have := Except.ok.inj h
          rw [← this, List.length_set]
        · rw [if_neg hz] at h
          have := ih _ _ _ _ h
          rw [this, List.length_set]
      · rw [if_neg hil] at h
        simp at h

/-- For lengths at or beyond `2^62` the `power <<= 1` shift wraps to zero on
`usize` before the table terminates, so the construction hits a division by
zero, independent of the current table contents. -/
theorem lut_loop_big_err (len : Nat) (hbig : 2 ^ 62 ≤ len) :
    ∀ fuel i cur, cur.length = 64 → i ≤ 63 → 64 - i < fuel →
      lut_loop len cur (2 ^ i) i fuel = .error .divByZero := by
  intro fuel
  induction fuel with
  | zero => intro i cur _ _ hf; omega
  | succ fuel ih =>
    intro i cur hlen hi hf
    by_cases h63 : i = 63
    · subst h63
      have hz : (2 : Nat) ^ 63 * 2 % 2 ^ 64 = 0 := by norm_num
      simp only [lut_loop]
      rw [if_pos hz]
    · have hi62 : i ≤ 62 := by omega
      have hpow : (2 : Nat) ^ i * 2 % 2 ^ 64 = 2 ^ (i + 1) := by
        rw [show (2 : Nat) ^ i * 2 = 2 ^ (i + 1) by rw [pow_succ]]
        apply Nat.mod_eq_of_lt
        apply Nat.pow_lt_pow_right (by omega)
        omega
      have hpow_ne : ¬ ((2 : Nat) ^ i * 2 % 2 ^ 64 = 0) := by
        rw [hpow]; positivity
      have hil : i < cur.length := by omega
      have hE : (len + 2 ^ i) / (2 ^ i * 2 % 2 ^ 64) = lut_entry len i := by
        rw [hpow]; rfl
      have hz : ¬ lut_entry len i = 0 := by
        have h2i : (2 : Nat) ^ i ≤ 2 ^ 62 := Nat.pow_le_pow_right (by omega) hi62
        have := (lut_entry_pos_iff len i).mpr (by omega)
        omega
      have hstep : lut_loop len cur (2 ^ i) i (fuel + 1)
          = lut_loop len (cur.set i (lut_entry len i)) (2 ^ (i + 1)) (i + 1) fuel := by
        simp only [lut_loop]
        rw [if_neg hpow_ne, if_pos hil, hE, if_neg hz, hpow]
      rw [hstep]
      exact ih (i + 1) _ (by rw [List.length_set]; exact hlen) (by omega) (by omega)

/-- Searcher states reachable from `new` through successful searches. -/
inductive UBS_reachable : UniformBinarySearch → Prop where
  | base : UBS_reachable UniformBinarySearch.new
  | step (s s2 : UniformBinarySearch) (target : Int) (arr : List Int)
      (r : Option Nat) : UBS_reachable s →
      s.search target arr = .ok (s2, r) → UBS_reachable s2

/-- Every reachable searcher still has no cached length (the code never sets
it) and a length-64 table. -/
theorem UBS_reachable_invariant (s : UniformBinarySearch) (h : UBS_reachable s) :
    s.last_arr_size = none ∧ s.lookup_table.length = 64 := by
  induction h with
  | base => exact ⟨rfl, by simp [UniformBinarySearch.new]⟩
  | step s s2 target arr r hreach heq ih =>
    by_cases hsort : is_sorted arr = false
    · rw [UniformBinarySearch.search, if_pos hsort] at heq
      simp at heq
    · rw [UniformBinarySearch.search, if_neg hsort] at heq
      by_cases hemp : arr.isEmpty = true
      · rw [if_pos hemp] at heq
        have h1 := Except.ok.inj heq
        have h2 : s = s2 := congrArg Prod.fst h1
        rw [← h2]
        exact ih
      · rw [if_neg hemp, ih.1] at heq
        simp only at heq
        rw [if_pos trivial] at heq
        cases hupd : s.update_lookup_table arr.length with
        | error p => rw [hupd] at heq; simp at heq
        | ok s3 =>
          rw [hupd] at heq
          simp only at heq
          cases hinner : s3.inner_search target arr with
          | error p => rw [hinner] at heq; simp at heq
          | ok r2 =>
            rw [hinner] at heq
            simp only at heq
            have h1 := Except.ok.inj heq
            have h2 : s3 = s2 := congrArg Prod.fst h1
            rw [← h2]
            rw [UniformBinarySearch.update_lookup_table] at hupd
            cases hl : lut_loop arr.length s.lookup_table 1 0 65 with
            | error p => rw [hl] at hupd; simp at hupd
            | ok tbl =>
              rw [hl] at hupd
              simp only at hupd
              have h3 := Except.ok.inj hupd
              rw [← h3]
              refine ⟨ih.1, ?_⟩
              show tbl.length = 64
              rw [lut_loop_ok_length arr.length 65 s.lookup_table 1 0 tbl hl]
              exact ih.2

/-- The inner search only ever reads table entries whose predecessors are all
nonzero, so two tables agreeing on those entries drive it identically. -/
theorem inner_loop_congr (target : Int) (arr : List Int) (len : Nat)
    (t1 t2 : List Nat) (hl1 : t1.length = 64) (hl2 : t2.length = 64)
    (h1 : ∀ i, i < 64 → (∀ j, j < i → lut_entry len j ≠ 0) →
      t1.get? i = some (lut_entry len i))
    (h2 : ∀ i, i < 64 → (∀ j, j < i → lut_entry len j ≠ 0) →
      t2.get? i = some (lut_entry len i)) :
    ∀ fuel d idx, (∀ j, j < d → lut_entry len j ≠ 0) →
      inner_loop target arr t1 idx d fuel = inner_loop target arr t2 idx d fuel := by
  intro fuel
  induction fuel with
  | zero => intro d idx _; rfl
  | succ fuel ih =>
    intro d idx hpath
    by_cases hd : d < 64
    · have hr1 := h1 d hd hpath
      have hr2 := h2 d hd hpath
      by_cases hz : lut_entry len d = 0
      · simp only [inner_loop, hr1, hr2, if_pos hz]
      · cases hv : arr.get? idx with
        | none => simp only [inner_loop, hr1, hr2, if_neg hz, hv]
        | some v =>
          by_cases hveq : v = target
          · simp only [inner_loop, hr1, hr2, if_neg hz, hv, if_pos hveq]
          · have hpath2 : ∀ j, j < d + 1 → lut_entry len j ≠ 0 := by
              intro j hj
              rcases Nat.lt_or_ge j d with h | h
              · exact hpath j h
              · have : j = d := by omega
                rw [this]; exact hz
            by_cases hd1 : d + 1 < 64
            · have hs1 := h1 (d + 1) hd1 hpath2
              have hs2 := h2 (d + 1) hd1 hpath2
              by_cases hvlt : v < target
              · simp only [inner_loop, hr1, hr2, if_neg hz, hv, if_neg hveq,
                  if_pos hvlt, hs1, hs2]
                exact ih (d + 1) (idx + lut_entry len (d + 1)) hpath2
              · simp only [inner_loop, hr1, hr2, if_neg hz, hv, if_neg hveq,
                  if_neg hvlt, hs1, hs2]
                by_cases hle : lut_entry len (d + 1) ≤ idx
                · rw [if_pos hle, if_pos hle]
                  exact ih (d + 1) (idx - lut_entry len (d + 1)) hpath2
                · rw [if_neg hle, if_neg hle]
            · have hn1 : t1.get? (d + 1) = none := List.get?_eq_none.mpr (by omega)
              have hn2 : t2.get? (d + 1) = none := List.get?_eq_none.mpr (by omega)
              by_cases hvlt : v < target
              · simp only [inner_loop, hr1, hr2, if_neg hz, hv, if_neg hveq,
                  if_pos hvlt, hn1, hn2]
              · simp only [inner_loop, hr1, hr2, if_neg hz, hv, if_neg hveq,
                  if_neg hvlt, hn1, hn2]
    · have hn1 : t1.get? d = none := List.get?_eq_none.mpr (by omega)
      have hn2 : t2.get? d = none := List.get?_eq_none.mpr (by omega)
      simp only [inner_loop, hn1, hn2]

/-- A searcher with no cached length always rebuilds the table and then runs
the inner search on the rebuilt state. -/
theorem search_after_update (s : UniformBinarySearch)
    (hnone : s.last_arr_size = none) (target : Int) (arr : List Int)
    (hsort : ¬ is_sorted arr = false) (hemp : ¬ arr.isEmpty = true) :
    s.search target arr
      = match s.update_lookup_table arr.length with
        | .error p => .error p
        | .ok s2 =>
          match s2.inner_search target arr with
          | .error p => .error p
          | .ok r => .ok (s2, r) := by
  rw [UniformBinarySearch.search, if_neg hsort, if_neg hemp, hnone]
  simp only
  rw [if_pos trivial]

/-- C6 (confirmed).  `UniformBinarySearch::search` is insensitive to prior
cache state: from any reachable searcher (warm cache, same or different
earlier lengths) a search returns exactly what a freshly constructed searcher
returns.  (In the code this holds because `last_arr_size` is never assigned,
so the table is rebuilt on every call and the rebuilt prefix is all the inner
search ever reads.) -/
theorem c6_cache_insensitive (s : UniformBinarySearch) (hreach : UBS_reachable s)
    (target : Int) (arr : List Int) :
    (s.search target arr).map Prod.snd
      = (UniformBinarySearch.new.search target arr).map Prod.snd := by
  obtain ⟨hnone, hlen⟩ := UBS_reachable_invariant s hreach
  have hnone' : UniformBinarySearch.new.last_arr_size = none := rfl
  have hlen' : UniformBinarySearch.new.lookup_table.length = 64 := by
    simp [UniformBinarySearch.new]
  by_cases hsort : is_sorted arr = false
  · rw [UniformBinarySearch.search, if_pos hsort,
      UniformBinarySearch.search, if_pos hsort]
  · by_cases hemp : arr.isEmpty = true
    · rw [UniformBinarySearch.search, if_neg hsort, if_pos hemp,
        UniformBinarySearch.search, if_neg hsort, if_pos hemp]
      rfl
    · rw [search_after_update s hnone target arr hsort hemp,
        search_after_update UniformBinarySearch.new hnone' target arr hsort hemp]
      by_cases hcap : arr.length < 2 ^ 62
      · rcases update_lookup_table_spec s arr.length hlen hcap with
          ⟨s2, k, hupd, _, hs2len, _, hkz, _, hle, _⟩
        rcases update_lookup_table_spec UniformBinarySearch.new arr.length hlen' hcap with
          ⟨s2b, kb, hupdb, _, hs2lenb, _, hkzb, _, hleb, _⟩
        have hag := table_agree arr.length s2.lookup_table k hkz hle
        have hagb := table_agree arr.length s2b.lookup_table kb hkzb hleb
        rw [hupd, hupdb]
        simp only
        have hinner : s2.inner_search target arr = s2b.inner_search target arr := by
          rw [UniformBinarySearch.inner_search, UniformBinarySearch.inner_search]
          have hr0 : s2.lookup_table.get? 0 = some (lut_entry arr.length 0) :=
            hag 0 (by omega) (by intro j hj; omega)
          have hr0b : s2b.lookup_table.get? 0 = some (lut_entry arr.length 0) :=
            hagb 0 (by omega) (by intro j hj; omega)
          rw [hr0, hr0b]
          simp only
          by_cases h0 : lut_entry arr.length 0 = 0
          · rw [if_pos h0, if_pos h0]
          · rw [if_neg h0, if_neg h0]
            exact inner_loop_congr target arr arr.length _ _ hs2len hs2lenb hag hagb
              66 0 _ (by intro j hj; omega)
        rw [hinner]
        cases s2b.inner_search target arr with
        | error p => rfl
        | ok r => rfl
      · have hbig : 2 ^ 62 ≤ arr.length := by omega
        have herr : s.update_lookup_table arr.length = .error .divByZero := by
          rw [UniformBinarySearch.update_lookup_table]
          have h := lut_loop_big_err arr.length hbig 65 0 s.lookup_table hlen
            (by omega) (by omega)
          rw [pow_zero] at h
          rw [h]
        have herrb : UniformBinarySearch.new.update_lookup_table arr.length
            = .error .divByZero := by
          rw [UniformBinarySearch.update_lookup_table]
          have h := lut_loop_big_err arr.length hbig 65 0
            UniformBinarySearch.new.lookup_table hlen' (by omega) (by omega)
          rw [pow_zero] at h
          rw [h]
        rw [herr, herrb]

theorem c6_cache_insensitive_witness :
    UBS_reachable { last_arr_size := none,
                    lookup_table := [2, 1, 0] ++ List.replicate 61 0 } ∧
    (({ last_arr_size := none,
        lookup_table := [2, 1, 0] ++ List.replicate 61 0 } :
          UniformBinarySearch).search 7 [4, 5, 6, 7]).map Prod.snd
      = (UniformBinarySearch.new.search 7 [4, 5, 6, 7]).map Prod.snd := by
  have hre : UBS_reachable
      { last_arr_size := none,
        lookup_table := [2, 1, 0] ++ List.replicate 61 0 } :=
    UBS_reachable.step UniformBinarySearch.new _ 2 [1, 2, 3] (some 1)
      UBS_reachable.base rfl
  exact ⟨hre, c6_cache_insensitive _ hre 7 [4, 5, 6, 7]⟩

theorem c5_table_construction_witness :
    (8 : Nat) < 2 ^ 62 ∧
    ((∃ s2, UniformBinarySearch.new.update_lookup_table 8 = .ok s2 ∧
      ∀ i, i < 64 → s2.lookup_table.get? i = some ((8 + 2 ^ i) / 2 ^ (i + 1))) ∧
    UniformBinarySearch.new.update_lookup_table 8
      = .ok { last_arr_size := none,
              lookup_table := [4, 2, 1, 1, 0] ++ List.replicate 59 0 }) :=
  ⟨by decide, c5_table_construction 8 (by decide)⟩
